import Mathlib

/-!
Verification of the spectral-analysis component of the time-series notebook.

The notebook's computational content is a set of library calls:
`np.fft.fft` (full-sequence discrete Fourier transform, squared magnitudes
plotted as power), `scipy.signal.lombscargle` (generalized least-squares
periodogram on a caller-supplied angular-frequency grid, optionally
normalized), `scipy.signal.correlate` (full cross- and auto-correlation) and the
helper `to_metric` converting a distance modulus to a metric distance.

We embed the mathematics those calls compute over exact real/complex
arithmetic.  The two component operations named by the specification,
`uniform_power_spectrum` and `lomb_scargle_periodogram`, do not occur as
functions in the repository (the notebook inlines the library calls), so
their wrappers — argument validation and the `InvalidInput` error — are
modelled from the specification, as marked on their doc comments.
-/

namespace TimeSeries

open Complex Finset

/-- The single error kind of the spectral-analysis component. -/
inductive SpecError : Type
  | InvalidInput
  deriving DecidableEq

/-- Discrete Fourier transform of a real sample list at integer bin `k`:
`F(k) = ∑_{n<N} x[n]·exp(-2πi·k·n/N)`, the full-sequence transform computed by
`np.fft.fft(x)` in the notebook (the notebook's markdown states this formula as
`F(ω) = ∑ x[n] e^{-iωn}` with `ω = 2πk/N`). -/
noncomputable def dft (x : List ℝ) (k : ℕ) : ℂ :=
  ∑ n ∈ Finset.range x.length,
    (x.getD n 0 : ℂ) *
      Complex.exp (-(2 * (Real.pi : ℂ) * Complex.I * (k : ℂ) * (n : ℂ)) / (x.length : ℂ))

/-- Power at bin `k`: the squared magnitude `|F(k)|²` of the DFT, the quantity
the notebook plots as `np.abs(DFT)**2`. -/
noncomputable def powerAt (x : List ℝ) (k : ℕ) : ℝ :=
  Complex.normSq (dft x k)

/-- Modelled from the spec: `uniform_power_spectrum(samples)` — the component
operation wrapping the notebook's `np.abs(np.fft.fft(x))**2`.  The function
itself is absent from the repository (the notebook inlines the library call);
per the spec it fails with `InvalidInput` when N = 0 and otherwise returns the
squared DFT magnitude at each of the N bins. -/
noncomputable def uniform_power_spectrum (x : List ℝ) : Except SpecError (List ℝ) :=
  if x.length = 0 then Except.error SpecError.InvalidInput
  else Except.ok ((List.range x.length).map (powerAt x))

/-- Embedding of the notebook's `to_metric(distance_modulus)`:
`return 10.0 ** (distance_modulus / 5.0 - 5)` (metric distance in Mpc). -/
noncomputable def to_metric (distance_modulus : ℝ) : ℝ :=
  (10.0 : ℝ) ^ (distance_modulus / 5.0 - 5)

/-- Strictly increasing timestamps: every entry is less than its successor. -/
def strictlyIncreasing (ts : List ℝ) : Prop :=
  ts.Chain' (fun a b => a < b)

/-- Arithmetic mean of a sample list. -/
noncomputable def mean (xs : List ℝ) : ℝ :=
  xs.sum / xs.length

/-- Sample variance: mean squared deviation from the mean (numpy's `y.var()`,
the normalization base of `lombscargle(..., normalize=True)`). -/
noncomputable def variance (xs : List ℝ) : ℝ :=
  ((xs.map (fun v => (v - mean xs) ^ 2)).sum) / xs.length

/-- The time offset τ of the Lomb–Scargle statistic at angular frequency ω,
with `tan(2ωτ) = (∑ sin 2ωt_j) / (∑ cos 2ωt_j)`. -/
noncomputable def ls_tau (ts : List ℝ) (ω : ℝ) : ℝ :=
  Real.arctan (((ts.map (fun t => Real.sin (2 * ω * t))).sum) /
    ((ts.map (fun t => Real.cos (2 * ω * t))).sum)) / (2 * ω)

/-- Unnormalized generalized least-squares (Lomb–Scargle) power of the
timestamp/sample pairs at angular frequency ω: the per-frequency closed-form
statistic of the notebook's equation 13.8.3 without the 1/σ² prefactor,
the value `scipy.signal.lombscargle` computes with `normalize=False`. -/
noncomputable def ls_power_unnormalized (pairs : List (ℝ × ℝ)) (ω : ℝ) : ℝ :=
  let ts := pairs.map Prod.fst
  let xbar := mean (pairs.map Prod.snd)
  let τ := ls_tau ts ω
  let c := (pairs.map (fun p => (p.2 - xbar) * Real.cos (ω * (p.1 - τ)))).sum
  let s := (pairs.map (fun p => (p.2 - xbar) * Real.sin (ω * (p.1 - τ)))).sum
  let cc := (ts.map (fun t => (Real.cos (ω * (t - τ))) ^ 2)).sum
  let ss := (ts.map (fun t => (Real.sin (ω * (t - τ))) ^ 2)).sum
  (c ^ 2 / cc + s ^ 2 / ss) / 2

section LombScargleDef

open scoped Classical

/-- Modelled from the spec: `lomb_scargle_periodogram(timestamps, samples,
angular_frequencies, normalize)` — the component operation wrapping the
notebook's `lombscargle(t, S, angular_frequencies, normalize=...)` calls.  The
function itself is absent from the repository (the notebook inlines the
library call); per the spec it fails with `InvalidInput` when fewer than 3
timestamp/sample pairs are supplied, when the timestamps are not strictly
increasing, or when any requested angular frequency is ≤ 0, and otherwise
returns one power value per requested frequency, divided by twice the sample
variance when `normalize` is set. -/
noncomputable def lomb_scargle_periodogram (pairs : List (ℝ × ℝ)) (ωs : List ℝ)
    (normalize : Bool) : Except SpecError (List ℝ) :=
  if pairs.length < 3 ∨ ¬ strictlyIncreasing (pairs.map Prod.fst) ∨ ∃ ω ∈ ωs, ω ≤ 0 then
    Except.error SpecError.InvalidInput
  else
    Except.ok (ωs.map (fun ω =>
      if normalize then
        ls_power_unnormalized pairs ω / (2 * variance (pairs.map Prod.snd))
      else
        ls_power_unnormalized pairs ω))

end LombScargleDef

/-- C3: `lomb_scargle_periodogram` fails with `InvalidInput`, producing no
output, exactly when fewer than 3 timestamp/sample pairs are supplied, or the
timestamps are not strictly increasing, or some requested angular frequency
is ≤ 0; when all three preconditions hold it succeeds. -/
theorem lomb_scargle_invalid_iff (pairs : List (ℝ × ℝ)) (ωs : List ℝ) (b : Bool) :
    (lomb_scargle_periodogram pairs ωs b = Except.error SpecError.InvalidInput ↔
      pairs.length < 3 ∨ ¬ strictlyIncreasing (pairs.map Prod.fst) ∨ ∃ ω ∈ ωs, ω ≤ 0) ∧
      (¬ (pairs.length < 3 ∨ ¬ strictlyIncreasing (pairs.map Prod.fst) ∨
          ∃ ω ∈ ωs, ω ≤ 0) →
        ∃ out : List ℝ, lomb_scargle_periodogram pairs ωs b = Except.ok out) := by
  unfold lomb_scargle_periodogram
  by_cases hc : pairs.length < 3 ∨ ¬ strictlyIncreasing (pairs.map Prod.fst) ∨
      ∃ ω ∈ ωs, ω ≤ 0
  · rw [if_pos hc]
    exact ⟨⟨fun _ => hc, fun _ => rfl⟩, fun h => absurd hc h⟩
  · rw [if_neg hc]
    refine ⟨⟨fun h => ?_, fun h => absurd h hc⟩, fun _ => ⟨_, rfl⟩⟩
    simp at h

/-- Witness for C3: a valid 3-sample call succeeds. -/
theorem lomb_scargle_invalid_iff_witness :
    ¬ (([((0 : ℝ), (1 : ℝ)), (1, 2), (2, 3)]).length < 3 ∨
        ¬ strictlyIncreasing (([((0 : ℝ), (1 : ℝ)), (1, 2), (2, 3)]).map Prod.fst) ∨
        ∃ ω ∈ [(1 : ℝ)], ω ≤ 0) ∧
      ∃ out : List ℝ,
        lomb_scargle_periodogram [((0 : ℝ), (1 : ℝ)), (1, 2), (2, 3)] [(1 : ℝ)] false =
          Except.ok out := by
  have hpre : ¬ (([((0 : ℝ), (1 : ℝ)), (1, 2), (2, 3)]).length < 3 ∨
      ¬ strictlyIncreasing (([((0 : ℝ), (1 : ℝ)), (1, 2), (2, 3)]).map Prod.fst) ∨
      ∃ ω ∈ [(1 : ℝ)], ω ≤ 0) := by
    push_neg
    refine ⟨by norm_num, ?_, ?_⟩
    · simp [strictlyIncreasing]
    · intro ω hω
      simp at hω
      norm_num [hω]
  exact ⟨hpre, (lomb_scargle_invalid_iff [((0 : ℝ), (1 : ℝ)), (1, 2), (2, 3)]
    [(1 : ℝ)] false).2 hpre⟩

/-- C4: when `normalize` is set, every output power of the periodogram equals
the corresponding unnormalized generalized least-squares periodogram value
divided by twice the sample variance of the input samples. -/
theorem lomb_scargle_normalized (pairs : List (ℝ × ℝ)) (ωs out : List ℝ)
    (hp : lomb_scargle_periodogram pairs ωs true = Except.ok out) :
    ∀ k, k < ωs.length →
      out.getD k 0 = ls_power_unnormalized pairs (ωs.getD k 0) /
        (2 * variance (pairs.map Prod.snd)) := by
  intro k hk
  unfold lomb_scargle_periodogram at hp
  by_cases hc : pairs.length < 3 ∨ ¬ strictlyIncreasing (pairs.map Prod.fst) ∨
      ∃ ω ∈ ωs, ω ≤ 0
  · rw [if_pos hc] at hp
    simp at hp
  rw [if_neg hc] at hp
  simp only [Except.ok.injEq] at hp
  subst hp
  rw [List.getD_eq_getElem?_getD, List.getElem?_map, List.getElem?_eq_getElem hk]
  rw [List.getD_eq_getElem?_getD, List.getElem?_eq_getElem hk]
  simp

/-- Witness for C4 at a concrete normalized call with one frequency. -/
theorem lomb_scargle_normalized_witness :
    (0 : ℕ) < ([(1 : ℝ)]).length ∧
      (([(1 : ℝ)]).map (fun ω =>
          ls_power_unnormalized [((0 : ℝ), (1 : ℝ)), (1, 2), (2, 4)] ω /
            (2 * variance (([((0 : ℝ), (1 : ℝ)), (1, 2), (2, 4)]).map Prod.snd)))).getD 0 0 =
        ls_power_unnormalized [((0 : ℝ), (1 : ℝ)), (1, 2), (2, 4)] (([(1 : ℝ)]).getD 0 0) /
          (2 * variance (([((0 : ℝ), (1 : ℝ)), (1, 2), (2, 4)]).map Prod.snd)) := by
  have hpre : ¬ (([((0 : ℝ), (1 : ℝ)), (1, 2), (2, 4)]).length < 3 ∨
      ¬ strictlyIncreasing (([((0 : ℝ), (1 : ℝ)), (1, 2), (2, 4)]).map Prod.fst) ∨
      ∃ ω ∈ [(1 : ℝ)], ω ≤ 0) := by
    push_neg
    refine ⟨by norm_num, ?_, ?_⟩
    · simp [strictlyIncreasing]
    · intro ω hω
      simp at hω
      norm_num [hω]
  have hp : lomb_scargle_periodogram [((0 : ℝ), (1 : ℝ)), (1, 2), (2, 4)] [(1 : ℝ)] true =
      Except.ok (([(1 : ℝ)]).map (fun ω =>
        ls_power_unnormalized [((0 : ℝ), (1 : ℝ)), (1, 2), (2, 4)] ω /
          (2 * variance (([((0 : ℝ), (1 : ℝ)), (1, 2), (2, 4)]).map Prod.snd)))) := by
    unfold lomb_scargle_periodogram
    rw [if_neg hpre]
    simp
  exact ⟨by decide,
    lomb_scargle_normalized [((0 : ℝ), (1 : ℝ)), (1, 2), (2, 4)] [(1 : ℝ)] _ hp 0
      (by decide)⟩

/-- C8: both component operations are pure functions of their arguments in
this embedding: two calls with identical inputs return identical outputs, and
no call carries or mutates any state observable by a later call. -/
theorem spectral_calls_deterministic :
    (∀ x : List ℝ, uniform_power_spectrum x = uniform_power_spectrum x) ∧
      ∀ (pairs : List (ℝ × ℝ)) (ωs : List ℝ) (b : Bool),
        lomb_scargle_periodogram pairs ωs b = lomb_scargle_periodogram pairs ωs b :=
  ⟨fun _ => rfl, fun _ _ _ => rfl⟩

/-- C5: `uniform_power_spectrum` fails with the `InvalidInput` error on the
empty sample sequence (N = 0); the `Except.error` result carries no partial
output. -/
theorem uniform_power_spectrum_empty :
    uniform_power_spectrum ([] : List ℝ) = Except.error SpecError.InvalidInput := by
  simp [uniform_power_spectrum]

/-- C6: for every all-zero input of length N ≥ 1, `uniform_power_spectrum`
returns N power values that are all zero. -/
theorem uniform_power_spectrum_zeros (N : ℕ) (h : 1 ≤ N) :
    uniform_power_spectrum (List.replicate N (0 : ℝ)) =
      Except.ok (List.replicate N (0 : ℝ)) := by
  have hgd : ∀ n, (List.replicate N (0 : ℝ)).getD n 0 = 0 := by
    intro n
    rcases lt_or_ge n N with h1 | h1
    · simp [List.getD_eq_getElem?_getD, List.getElem?_replicate, h1]
    · rw [List.getD_eq_default]
      simp [h1]
  have hdft : ∀ k, dft (List.replicate N (0 : ℝ)) k = 0 := by
    intro k
    unfold dft
    simp [hgd]
  have hpow : ∀ k, powerAt (List.replicate N (0 : ℝ)) k = 0 := by
    intro k
    simp [powerAt, hdft]
  unfold uniform_power_spectrum
  rw [if_neg (by simp; omega)]
  congr 1
  rw [List.length_replicate]
  calc (List.range N).map (powerAt (List.replicate N (0 : ℝ)))
      = (List.range N).map (fun _ => (0 : ℝ)) :=
        List.map_congr_left (fun k _ => hpow k)
    _ = List.replicate N (0 : ℝ) := by
        rw [List.map_const']
        rw [List.length_range]

/-- Witness for C6 at N = 3. -/
theorem uniform_power_spectrum_zeros_witness :
    1 ≤ 3 ∧ uniform_power_spectrum (List.replicate 3 (0 : ℝ)) =
      Except.ok (List.replicate 3 (0 : ℝ)) :=
  ⟨by decide, uniform_power_spectrum_zeros 3 (by decide)⟩

/-- C2: for every real input of length N ≥ 1, `uniform_power_spectrum`
succeeds and returns exactly N power values, the k-th being the squared DFT
magnitude of the full transform at bin k; all N bins k = 0,…,N−1 are produced
(those with k > N/2 are the negative-frequency bins of `np.fft.fftfreq`). -/
theorem uniform_power_spectrum_length (x : List ℝ) (h : 1 ≤ x.length) :
    ∃ p : List ℝ, uniform_power_spectrum x = Except.ok p ∧ p.length = x.length ∧
      ∀ k, k < x.length → p.getD k 0 = Complex.normSq (dft x k) := by
  refine ⟨(List.range x.length).map (powerAt x), ?_, ?_, ?_⟩
  · unfold uniform_power_spectrum
    rw [if_neg (by omega)]
  · simp
  · intro k hk
    simp [List.getD_eq_getElem?_getD, List.getElem?_range, hk, powerAt]

/-- Witness for C2 at the concrete input [1, 2]. -/
theorem uniform_power_spectrum_length_witness :
    1 ≤ ([(1 : ℝ), 2]).length ∧
      ∃ p : List ℝ, uniform_power_spectrum [(1 : ℝ), 2] = Except.ok p ∧
        p.length = ([(1 : ℝ), 2]).length ∧
        ∀ k, k < ([(1 : ℝ), 2]).length → p.getD k 0 = Complex.normSq (dft [(1 : ℝ), 2] k) :=
  ⟨by decide, uniform_power_spectrum_length [(1 : ℝ), 2] (by decide)⟩

/-- For a real-valued sample list, the DFT at bin N − k is the complex
conjugate of the DFT at bin k (for k ≤ N). -/
theorem dft_flip (x : List ℝ) (k : ℕ) (hk : k ≤ x.length) :
    dft x (x.length - k) = (starRingEnd ℂ) (dft x k) := by
  rcases Nat.eq_zero_or_pos x.length with h0 | hpos
  · unfold dft
    rw [h0]
    simp
  have hNe : (x.length : ℂ) ≠ 0 := Nat.cast_ne_zero.mpr (by omega)
  unfold dft
  rw [map_sum]
  refine Finset.sum_congr rfl (fun n hn => ?_)
  rw [map_mul, Complex.conj_ofReal]
  congr 1
  rw [← Complex.exp_conj]
  have harg : (starRingEnd ℂ)
        (-(2 * (Real.pi : ℂ) * Complex.I * (k : ℂ) * (n : ℂ)) / (x.length : ℂ))
      = (2 * (Real.pi : ℂ) * Complex.I * (k : ℂ) * (n : ℂ)) / (x.length : ℂ) := by
    simp only [map_div₀, map_neg, map_mul, map_ofNat, map_natCast, Complex.conj_I,
      Complex.conj_ofReal]
    ring
  rw [harg]
  have hsub : ((x.length - k : ℕ) : ℂ) = (x.length : ℂ) - (k : ℂ) := by
    push_cast [hk]
    ring
  rw [hsub]
  have hsplit : -(2 * (Real.pi : ℂ) * Complex.I * ((x.length : ℂ) - (k : ℂ)) * (n : ℂ)) /
        (x.length : ℂ)
      = (-(n : ℂ)) * (2 * (Real.pi : ℂ) * Complex.I) +
        (2 * (Real.pi : ℂ) * Complex.I * (k : ℂ) * (n : ℂ)) / (x.length : ℂ) := by
    field_simp
    ring
  rw [hsplit, Complex.exp_add]
  have h1 : Complex.exp ((-(n : ℂ)) * (2 * (Real.pi : ℂ) * Complex.I)) = 1 := by
    have h := Complex.exp_int_mul_two_pi_mul_I (-(n : ℤ))
    push_cast at h
    exact h
  rw [h1, one_mul]

/-- C1: for a real-valued input of length N, the power spectrum returned by
`uniform_power_spectrum` satisfies power[k] = power[N−k] for every
1 ≤ k ≤ N−1 (aliasing symmetry), exactly, in this exact-arithmetic
embedding. -/
theorem uniform_power_spectrum_symm (x p : List ℝ)
    (hp : uniform_power_spectrum x = Except.ok p) (k : ℕ) (h1 : 1 ≤ k)
    (h2 : k ≤ x.length - 1) :
    p.getD k 0 = p.getD (x.length - k) 0 := by
  unfold uniform_power_spectrum at hp
  by_cases h0 : x.length = 0
  · rw [if_pos h0] at hp
    exact absurd hp (by simp)
  rw [if_neg h0] at hp
  have hp' : p = (List.range x.length).map (powerAt x) := (Except.ok.injEq _ _).mp hp.symm
  have hkN : k < x.length := by omega
  have hk2 : x.length - k < x.length := by omega
  have hkle : k ≤ x.length := by omega
  rw [hp']
  rw [List.getD_eq_getElem?_getD, List.getD_eq_getElem?_getD]
  simp only [List.getElem?_map, List.getElem?_range, hkN, hk2, if_pos]
  simp only [Option.map_some', Option.getD_some]
  show powerAt x k = powerAt x (x.length - k)
  unfold powerAt
  rw [dft_flip x k hkle, Complex.normSq_conj]

/-- Witness for C1 at the concrete input [1, 2, 3] with k = 1. -/
theorem uniform_power_spectrum_symm_witness :
    uniform_power_spectrum [(1 : ℝ), 2, 3] =
        Except.ok ((List.range 3).map (powerAt [(1 : ℝ), 2, 3])) ∧
      1 ≤ 1 ∧ 1 ≤ ([(1 : ℝ), 2, 3]).length - 1 ∧
      ((List.range 3).map (powerAt [(1 : ℝ), 2, 3])).getD 1 0 =
        ((List.range 3).map (powerAt [(1 : ℝ), 2, 3])).getD (([(1 : ℝ), 2, 3]).length - 1) 0 :=
  ⟨rfl, by decide, by decide,
    uniform_power_spectrum_symm [(1 : ℝ), 2, 3]
      ((List.range 3).map (powerAt [(1 : ℝ), 2, 3])) rfl 1 (by decide) (by decide)⟩

/-- The notebook's pure noiseless sinusoid `x = A * np.sin(2 * np.pi * f0 * t + phi)`
sampled at N uniformly spaced points with the frequency f0 an integer bin
index (t_n = n/N), as in the bin-alignment test with N = 400, f0 = 10. -/
noncomputable def sinusoid_samples (A φ : ℝ) (f0 N : ℕ) : List ℝ :=
  (List.range N).map (fun (n : ℕ) => A * Real.sin (2 * Real.pi * f0 * n / N + φ))

/-- Real sine as a combination of complex exponentials. -/
theorem sin_via_exp (θ : ℝ) :
    ((Real.sin θ : ℝ) : ℂ) =
      (Complex.exp (Complex.I * θ) - Complex.exp (-(Complex.I * θ))) /
        (2 * Complex.I) := by
  rw [Complex.ofReal_sin]
  unfold Complex.sin
  have hI : Complex.I ≠ 0 := Complex.I_ne_zero
  field_simp
  rw [mul_comm (θ : ℂ) Complex.I]
  linear_combination
    (Complex.exp (-(Complex.I * (θ : ℂ))) - Complex.exp (Complex.I * (θ : ℂ))) * 2 *
      Complex.I_sq

/-- Geometric sum of the N-th roots of unity: `∑_{n<N} exp(2πi·m·n/N)` is N
when N divides m and 0 otherwise. -/
theorem sum_exp_unit_root (N : ℕ) (hN : 0 < N) (m : ℤ) :
    ∑ n ∈ Finset.range N,
        Complex.exp (2 * (Real.pi : ℂ) * Complex.I * (m : ℂ) * (n : ℂ) / (N : ℂ)) =
      if (N : ℤ) ∣ m then (N : ℂ) else 0 := by
  have hNe : (N : ℂ) ≠ 0 := Nat.cast_ne_zero.mpr (by omega)
  have hπ : (Real.pi : ℂ) ≠ 0 := Complex.ofReal_ne_zero.mpr Real.pi_ne_zero
  have hI : Complex.I ≠ 0 := Complex.I_ne_zero
  have hterm : ∀ n : ℕ,
      Complex.exp (2 * (Real.pi : ℂ) * Complex.I * (m : ℂ) * (n : ℂ) / (N : ℂ)) =
        Complex.exp (2 * (Real.pi : ℂ) * Complex.I * (m : ℂ) / (N : ℂ)) ^ n := by
    intro n
    rw [← Complex.exp_nat_mul]
    congr 1
    ring
  rw [Finset.sum_congr rfl (fun n _ => hterm n)]
  by_cases hdvd : (N : ℤ) ∣ m
  · obtain ⟨c, hc⟩ := hdvd
    have hz : Complex.exp (2 * (Real.pi : ℂ) * Complex.I * (m : ℂ) / (N : ℂ)) = 1 := by
      have harg : 2 * (Real.pi : ℂ) * Complex.I * (m : ℂ) / (N : ℂ) =
          (c : ℂ) * (2 * (Real.pi : ℂ) * Complex.I) := by
        rw [hc]
        push_cast
        field_simp
        ring
      rw [harg]
      exact Complex.exp_int_mul_two_pi_mul_I c
    rw [if_pos ⟨c, hc⟩]
    simp [hz]
  · have hz : Complex.exp (2 * (Real.pi : ℂ) * Complex.I * (m : ℂ) / (N : ℂ)) ≠ 1 := by
      intro h1
      obtain ⟨c, hc⟩ := Complex.exp_eq_one_iff.mp h1
      apply hdvd
      refine ⟨c, ?_⟩
      have hmc : (m : ℂ) = (N : ℂ) * (c : ℂ) := by
        have h3 : (2 * (Real.pi : ℂ) * Complex.I) * (m : ℂ) =
            (2 * (Real.pi : ℂ) * Complex.I) * ((N : ℂ) * (c : ℂ)) := by
          have h4 := hc
          field_simp at h4
          linear_combination h4
        exact mul_left_cancel₀ (by simp [hπ, hI]) h3
      exact_mod_cast hmc
    rw [if_neg hdvd, geom_sum_eq hz]
    have hpow : Complex.exp (2 * (Real.pi : ℂ) * Complex.I * (m : ℂ) / (N : ℂ)) ^ N = 1 := by
      rw [← Complex.exp_nat_mul]
      have harg : (N : ℂ) * (2 * (Real.pi : ℂ) * Complex.I * (m : ℂ) / (N : ℂ)) =
          (m : ℂ) * (2 * (Real.pi : ℂ) * Complex.I) := by
        field_simp
        ring
      rw [harg]
      exact Complex.exp_int_mul_two_pi_mul_I m
    rw [hpow]
    simp

/-- Closed form of the DFT of the bin-aligned sinusoid: only the resonant
geometric sums survive. -/
theorem dft_sinusoid (A φ : ℝ) (f0 N : ℕ) (hN : 0 < N) (k : ℕ) :
    dft (sinusoid_samples A φ f0 N) k =
      (A : ℂ) * Complex.exp (Complex.I * (φ : ℂ)) / (2 * Complex.I) *
          (if (N : ℤ) ∣ ((f0 : ℤ) - (k : ℤ)) then (N : ℂ) else 0) -
        (A : ℂ) * Complex.exp (-(Complex.I * (φ : ℂ))) / (2 * Complex.I) *
          (if (N : ℤ) ∣ (-((f0 : ℤ) + (k : ℤ))) then (N : ℂ) else 0) := by
  have hlen : (sinusoid_samples A φ f0 N).length = N := by
    unfold sinusoid_samples
    rw [List.length_map, List.length_range]
  have hget : ∀ n, n < N → (sinusoid_samples A φ f0 N).getD n 0 =
      A * Real.sin (2 * Real.pi * f0 * n / N + φ) := by
    intro n hn
    unfold sinusoid_samples
    rw [List.getD_eq_getElem?_getD, List.getElem?_map, List.getElem?_range hn]
    simp
  unfold dft
  rw [hlen]
  have hpt : ∀ n ∈ Finset.range N,
      ((sinusoid_samples A φ f0 N).getD n 0 : ℂ) *
          Complex.exp (-(2 * (Real.pi : ℂ) * Complex.I * (k : ℂ) * (n : ℂ)) / (N : ℂ)) =
        (A : ℂ) * Complex.exp (Complex.I * (φ : ℂ)) / (2 * Complex.I) *
            Complex.exp (2 * (Real.pi : ℂ) * Complex.I * (((f0 : ℤ) - (k : ℤ) : ℤ) : ℂ) *
              (n : ℂ) / (N : ℂ)) -
          (A : ℂ) * Complex.exp (-(Complex.I * (φ : ℂ))) / (2 * Complex.I) *
            Complex.exp (2 * (Real.pi : ℂ) * Complex.I * ((-((f0 : ℤ) + (k : ℤ)) : ℤ) : ℂ) *
              (n : ℂ) / (N : ℂ)) := by
    intro n hn
    rw [hget n (Finset.mem_range.mp hn), Complex.ofReal_mul, sin_via_exp]
    have e1 : Complex.exp
          (Complex.I * ((2 * Real.pi * (f0 : ℝ) * (n : ℝ) / (N : ℝ) + φ : ℝ) : ℂ)) =
        Complex.exp (Complex.I * (φ : ℂ)) *
          Complex.exp (2 * (Real.pi : ℂ) * Complex.I * (f0 : ℂ) * (n : ℂ) / (N : ℂ)) := by
      rw [← Complex.exp_add]
      congr 1
      push_cast
      ring
    have e2 : Complex.exp
          (-(Complex.I * ((2 * Real.pi * (f0 : ℝ) * (n : ℝ) / (N : ℝ) + φ : ℝ) : ℂ))) =
        (Complex.exp (Complex.I * (φ : ℂ)))⁻¹ *
          (Complex.exp (2 * (Real.pi : ℂ) * Complex.I * (f0 : ℂ) * (n : ℂ) / (N : ℂ)))⁻¹ := by
      rw [Complex.exp_neg, e1, mul_inv]
    have e3 : Complex.exp (-(2 * (Real.pi : ℂ) * Complex.I * (k : ℂ) * (n : ℂ)) / (N : ℂ)) =
        (Complex.exp (2 * (Real.pi : ℂ) * Complex.I * (k : ℂ) * (n : ℂ) / (N : ℂ)))⁻¹ := by
      rw [← Complex.exp_neg]
      congr 1
      ring
    have e4 : Complex.exp (2 * (Real.pi : ℂ) * Complex.I * (((f0 : ℤ) - (k : ℤ) : ℤ) : ℂ) *
          (n : ℂ) / (N : ℂ)) =
        Complex.exp (2 * (Real.pi : ℂ) * Complex.I * (f0 : ℂ) * (n : ℂ) / (N : ℂ)) *
          (Complex.exp (2 * (Real.pi : ℂ) * Complex.I * (k : ℂ) * (n : ℂ) / (N : ℂ)))⁻¹ := by
      rw [← Complex.exp_neg, ← Complex.exp_add]
      congr 1
      push_cast
      ring
    have e5 : Complex.exp (2 * (Real.pi : ℂ) * Complex.I * ((-((f0 : ℤ) + (k : ℤ)) : ℤ) : ℂ) *
          (n : ℂ) / (N : ℂ)) =
        (Complex.exp (2 * (Real.pi : ℂ) * Complex.I * (f0 : ℂ) * (n : ℂ) / (N : ℂ)))⁻¹ *
          (Complex.exp (2 * (Real.pi : ℂ) * Complex.I * (k : ℂ) * (n : ℂ) / (N : ℂ)))⁻¹ := by
      rw [← mul_inv, ← Complex.exp_add, ← Complex.exp_neg]
      congr 1
      push_cast
      ring
    rw [e1, e2, e3, e4, e5, Complex.exp_neg]
    ring
  rw [Finset.sum_congr rfl hpt, Finset.sum_sub_distrib, ← Finset.mul_sum, ← Finset.mul_sum]
  rw [sum_exp_unit_root N hN ((f0 : ℤ) - (k : ℤ)),
    sum_exp_unit_root N hN (-((f0 : ℤ) + (k : ℤ)))]

/-- Squared magnitude of a unit complex exponential. -/
theorem normSq_exp_I_mul (t : ℝ) :
    Complex.normSq (Complex.exp (Complex.I * (t : ℂ))) = 1 := by
  rw [← Complex.sq_abs, Complex.abs_exp]
  simp

/-- C7: for the pure noiseless sinusoid whose frequency f0 is an integer bin
index (0 < f0 < N/2, amplitude A ≠ 0, any phase) sampled at N uniformly
spaced points, every bin other than f0 and the mirror N−f0 has exactly zero
power while bin f0 has power (A·N/2)² > 0: ignoring the mirror bin, the bin
of maximum power is exactly f0 (the notebook's instance is N = 400, f0 = 10,
whose sole significant non-mirror peak is therefore at bin 10). -/
theorem sinusoid_peak_bin (A φ : ℝ) (f0 N : ℕ) (hA : A ≠ 0) (hf0 : 0 < f0)
    (hN : 2 * f0 < N) :
    powerAt (sinusoid_samples A φ f0 N) f0 = (A * (N : ℝ) / 2) ^ 2 ∧
      (∀ k, k < N → k ≠ f0 → k ≠ N - f0 →
        powerAt (sinusoid_samples A φ f0 N) k = 0) ∧
      0 < powerAt (sinusoid_samples A φ f0 N) f0 := by
  have hNpos : 0 < N := by omega
  have hd : dft (sinusoid_samples A φ f0 N) f0 =
      (A : ℂ) * Complex.exp (Complex.I * (φ : ℂ)) / (2 * Complex.I) * (N : ℂ) := by
    rw [dft_sinusoid A φ f0 N hNpos f0]
    rw [if_pos (by simp), if_neg ?h2]
    · ring
    case h2 =>
      rw [dvd_neg]
      intro hdvd
      have h0 : ((f0 : ℤ) + (f0 : ℤ)) = 0 :=
        Int.eq_zero_of_dvd_of_nonneg_of_lt (by positivity) (by omega) hdvd
      omega
  have hpow : powerAt (sinusoid_samples A φ f0 N) f0 = (A * (N : ℝ) / 2) ^ 2 := by
    rw [powerAt, hd]
    rw [Complex.normSq_mul, Complex.normSq_div, Complex.normSq_mul, Complex.normSq_mul,
      normSq_exp_I_mul φ]
    rw [Complex.normSq_ofReal, Complex.normSq_I, Complex.normSq_natCast]
    have h2 : Complex.normSq 2 = 4 := by
      rw [Complex.normSq_apply]
      norm_num
    rw [h2]
    ring
  have hzero : ∀ k, k < N → k ≠ f0 → k ≠ N - f0 →
      powerAt (sinusoid_samples A φ f0 N) k = 0 := by
    intro k hk hk1 hk2
    rw [powerAt, dft_sinusoid A φ f0 N hNpos k]
    rw [if_neg ?hc1, if_neg ?hc2]
    · simp
    case hc1 =>
      intro hdvd
      have h0 : (f0 : ℤ) - (k : ℤ) = 0 :=
        Int.eq_zero_of_dvd_of_natAbs_lt_natAbs hdvd (by omega)
      exact hk1 (by omega)
    case hc2 =>
      rw [dvd_neg]
      intro hdvd
      obtain ⟨c, hc⟩ := hdvd
      have hf0' : (1 : ℤ) ≤ (f0 : ℤ) := by exact_mod_cast hf0
      have hk0 : (0 : ℤ) ≤ (k : ℤ) := by positivity
      have hkN : (k : ℤ) < (N : ℤ) := by exact_mod_cast hk
      have h2f0 : 2 * (f0 : ℤ) < (N : ℤ) := by exact_mod_cast hN
      have hNz : (0 : ℤ) < (N : ℤ) := by exact_mod_cast hNpos
      have hcpos : 0 < c := by
        by_contra hle
        push_neg at hle
        have hmc : (N : ℤ) * c ≤ 0 := mul_nonpos_of_nonneg_of_nonpos (by positivity) hle
        linarith [hc, hmc]
      have hclt : c < 2 := by
        by_contra hge
        push_neg at hge
        have hmc : (N : ℤ) * 2 ≤ (N : ℤ) * c := mul_le_mul_of_nonneg_left hge (by positivity)
        linarith [hc, hmc]
      have hc1' : c = 1 := by omega
      rw [hc1', mul_one] at hc
      exact hk2 (by omega)
  refine ⟨hpow, hzero, ?_⟩
  rw [hpow]
  have hNr : (0 : ℝ) < (N : ℝ) := by exact_mod_cast hNpos
  have hANe : A * (N : ℝ) / 2 ≠ 0 :=
    div_ne_zero (mul_ne_zero hA (ne_of_gt hNr)) two_ne_zero
  exact pow_two_pos_of_ne_zero hANe

/-- Witness for C7 at the notebook's parameters N = 400, f0 = 10 (A = 1,
φ = π/2). -/
theorem sinusoid_peak_bin_witness :
    (1 : ℝ) ≠ 0 ∧ 0 < 10 ∧ 2 * 10 < 400 ∧
      (powerAt (sinusoid_samples 1 (Real.pi / 2) 10 400) 10 =
          ((1 : ℝ) * ((400 : ℕ) : ℝ) / 2) ^ 2 ∧
        (∀ k, k < 400 → k ≠ 10 → k ≠ 400 - 10 →
          powerAt (sinusoid_samples 1 (Real.pi / 2) 10 400) k = 0) ∧
        0 < powerAt (sinusoid_samples 1 (Real.pi / 2) 10 400) 10) :=
  ⟨by norm_num, by decide, by decide,
    sinusoid_peak_bin 1 (Real.pi / 2) 10 400 (by norm_num) (by decide) (by decide)⟩

/-- Value of a real sample list at an integer index, zero outside its range
(signals are zero-extended for correlation lags). -/
def atZ (a : List ℝ) (i : ℤ) : ℝ :=
  if 0 ≤ i then a.getD i.toNat 0 else 0

/-- Full discrete cross-correlation, the output of `scipy.signal.correlate(a, b)`
with the default mode "full": length `a.length + b.length − 1`, entry k equal
to `∑_l a[l] · b[l + (b.length − 1) − k]` with out-of-range samples read as
zero (the notebook's `C = correlate(B, A)` and `D = correlate(B, B)`). -/
noncomputable def correlate (a b : List ℝ) : List ℝ :=
  (List.range (a.length + b.length - 1)).map (fun (k : ℕ) =>
    ∑ l ∈ Finset.range a.length,
      a.getD l 0 * atZ b ((l : ℤ) + (b.length : ℤ) - 1 - (k : ℤ)))

/-- Entry k of the full cross-correlation, read with getD. -/
theorem correlate_getD (a b : List ℝ) (k : ℕ) (hk : k < a.length + b.length - 1) :
    (correlate a b).getD k 0 =
      ∑ l ∈ Finset.range a.length,
        a.getD l 0 * atZ b ((l : ℤ) + (b.length : ℤ) - 1 - (k : ℤ)) := by
  unfold correlate
  rw [List.getD_eq_getElem?_getD, List.getElem?_map, List.getElem?_range hk]
  simp

/-- A lag-shifted sum of squares of the zero-extended signal is at most the
total sum of squares. -/
theorem atZ_shift_sq_sum_le (B : List ℝ) (τ : ℤ) :
    ∑ l ∈ Finset.range B.length, (atZ B ((l : ℤ) + τ)) ^ 2 ≤
      ∑ i ∈ Finset.range B.length, (B.getD i 0) ^ 2 := by
  classical
  set n := B.length with hn
  set S := (Finset.range n).filter
    (fun (l : ℕ) => 0 ≤ (l : ℤ) + τ ∧ (l : ℤ) + τ < (n : ℤ)) with hS
  have h1 : ∑ l ∈ Finset.range n, (atZ B ((l : ℤ) + τ)) ^ 2 =
      ∑ l ∈ S, (atZ B ((l : ℤ) + τ)) ^ 2 := by
    symm
    apply Finset.sum_subset (Finset.filter_subset _ _)
    intro x hx hnx
    have hP : ¬ (0 ≤ (x : ℤ) + τ ∧ (x : ℤ) + τ < (n : ℤ)) := by
      intro hP
      exact hnx (Finset.mem_filter.mpr ⟨hx, hP⟩)
    by_cases h0 : 0 ≤ (x : ℤ) + τ
    · have hge : (n : ℤ) ≤ (x : ℤ) + τ := by
        by_contra hlt
        push_neg at hlt
        exact hP ⟨h0, hlt⟩
      have hz : atZ B ((x : ℤ) + τ) = 0 := by
        unfold atZ
        rw [if_pos h0]
        apply List.getD_eq_default
        omega
      rw [hz]
      norm_num
    · have hz : atZ B ((x : ℤ) + τ) = 0 := by
        unfold atZ
        rw [if_neg h0]
      rw [hz]
      norm_num
  have h2 : ∀ l ∈ S, atZ B ((l : ℤ) + τ) = B.getD ((l : ℤ) + τ).toNat 0 := by
    intro l hl
    rw [hS, Finset.mem_filter] at hl
    unfold atZ
    rw [if_pos hl.2.1]
  have hinj : ∀ a ∈ S, ∀ b ∈ S, ((a : ℤ) + τ).toNat = ((b : ℤ) + τ).toNat → a = b := by
    intro a ha b hb hab
    simp only [hS, Finset.mem_filter, Finset.mem_range] at ha hb
    omega
  have h3 : ∑ j ∈ S.image (fun (l : ℕ) => ((l : ℤ) + τ).toNat), (B.getD j 0) ^ 2 =
      ∑ l ∈ S, (B.getD ((l : ℤ) + τ).toNat 0) ^ 2 := Finset.sum_image hinj
  have h4 : S.image (fun (l : ℕ) => ((l : ℤ) + τ).toNat) ⊆ Finset.range n := by
    intro j hj
    simp only [Finset.mem_image] at hj
    obtain ⟨l, hl, rfl⟩ := hj
    simp only [hS, Finset.mem_filter, Finset.mem_range] at hl
    rw [Finset.mem_range]
    omega
  calc ∑ l ∈ Finset.range n, (atZ B ((l : ℤ) + τ)) ^ 2
      = ∑ l ∈ S, (atZ B ((l : ℤ) + τ)) ^ 2 := h1
    _ = ∑ l ∈ S, (B.getD ((l : ℤ) + τ).toNat 0) ^ 2 :=
        Finset.sum_congr rfl (fun l hl => by rw [h2 l hl])
    _ = ∑ j ∈ S.image (fun (l : ℕ) => ((l : ℤ) + τ).toNat), (B.getD j 0) ^ 2 := h3.symm
    _ ≤ ∑ i ∈ Finset.range n, (B.getD i 0) ^ 2 :=
        Finset.sum_le_sum_of_subset_of_nonneg h4 (fun i _ _ => sq_nonneg _)

/-- Any lag of the auto-correlation is bounded by the zero-lag energy. -/
theorem correlate_entry_le (B : List ℝ) (τ : ℤ) :
    ∑ l ∈ Finset.range B.length, B.getD l 0 * atZ B ((l : ℤ) + τ) ≤
      ∑ i ∈ Finset.range B.length, (B.getD i 0) ^ 2 := by
  have hterm : ∀ l ∈ Finset.range B.length,
      B.getD l 0 * atZ B ((l : ℤ) + τ) ≤
        ((B.getD l 0) ^ 2 + (atZ B ((l : ℤ) + τ)) ^ 2) / 2 := by
    intro l _
    have h := two_mul_le_add_sq (B.getD l 0) (atZ B ((l : ℤ) + τ))
    linarith
  calc ∑ l ∈ Finset.range B.length, B.getD l 0 * atZ B ((l : ℤ) + τ)
      ≤ ∑ l ∈ Finset.range B.length,
          ((B.getD l 0) ^ 2 + (atZ B ((l : ℤ) + τ)) ^ 2) / 2 :=
        Finset.sum_le_sum hterm
    _ = ((∑ l ∈ Finset.range B.length, (B.getD l 0) ^ 2) +
          ∑ l ∈ Finset.range B.length, (atZ B ((l : ℤ) + τ)) ^ 2) / 2 := by
        rw [← Finset.sum_add_distrib, ← Finset.sum_div]
    _ ≤ _ := by
        have h := atZ_shift_sq_sum_le B τ
        have h2 : (0 : ℝ) ≤ ∑ i ∈ Finset.range B.length, (B.getD i 0) ^ 2 :=
          Finset.sum_nonneg (fun i _ => sq_nonneg _)
        linarith

/-- C9: for every real signal B of length n ≥ 1, the full auto-correlation
`correlate(B, B)` has length 2n−1, its central (zero-lag) entry n−1 equals the
sum of squares of B and is a maximum over all entries, and the notebook's
half-slice `D = D[D.size // 2:]` has length n and starts with the signal's
total energy. -/
theorem correlate_self_spec (B : List ℝ) (h : 1 ≤ B.length) :
    (correlate B B).length = 2 * B.length - 1 ∧
      (correlate B B).getD (B.length - 1) 0 =
        ∑ i ∈ Finset.range B.length, (B.getD i 0) ^ 2 ∧
      (∀ k, k < 2 * B.length - 1 →
        (correlate B B).getD k 0 ≤ (correlate B B).getD (B.length - 1) 0) ∧
      ((correlate B B).drop ((correlate B B).length / 2)).length = B.length ∧
      ((correlate B B).drop ((correlate B B).length / 2)).getD 0 0 =
        ∑ i ∈ Finset.range B.length, (B.getD i 0) ^ 2 := by
  set n := B.length with hn
  have hlen : (correlate B B).length = 2 * n - 1 := by
    unfold correlate
    rw [List.length_map, List.length_range]
    omega
  have hcent : (correlate B B).getD (n - 1) 0 =
      ∑ i ∈ Finset.range n, (B.getD i 0) ^ 2 := by
    rw [correlate_getD B B (n - 1) (by omega)]
    refine Finset.sum_congr rfl (fun l hl => ?_)
    have hτ : (l : ℤ) + (n : ℤ) - 1 - ((n - 1 : ℕ) : ℤ) = (l : ℤ) := by
      rw [Nat.cast_sub h]
      push_cast
      ring
    rw [hτ]
    have hz : atZ B (l : ℤ) = B.getD l 0 := by
      unfold atZ
      rw [if_pos (Int.natCast_nonneg l)]
      simp
    rw [hz]
    ring
  have hbound : ∀ k, k < 2 * n - 1 →
      (correlate B B).getD k 0 ≤ (correlate B B).getD (n - 1) 0 := by
    intro k hk
    rw [hcent, correlate_getD B B k (by omega)]
    calc ∑ l ∈ Finset.range n, B.getD l 0 * atZ B ((l : ℤ) + (n : ℤ) - 1 - (k : ℤ))
        = ∑ l ∈ Finset.range n,
            B.getD l 0 * atZ B ((l : ℤ) + ((n : ℤ) - 1 - (k : ℤ))) := by
          refine Finset.sum_congr rfl (fun l _ => ?_)
          have harg : (l : ℤ) + (n : ℤ) - 1 - (k : ℤ) =
              (l : ℤ) + ((n : ℤ) - 1 - (k : ℤ)) := by ring
          rw [harg]
      _ ≤ ∑ i ∈ Finset.range n, (B.getD i 0) ^ 2 := correlate_entry_le B _
  have hidx : (correlate B B).length / 2 + 0 = n - 1 := by
    rw [hlen]
    omega
  have hdroplen : ((correlate B B).drop ((correlate B B).length / 2)).length = n := by
    rw [List.length_drop, hlen]
    omega
  have hdrop0 : ((correlate B B).drop ((correlate B B).length / 2)).getD 0 0 =
      ∑ i ∈ Finset.range n, (B.getD i 0) ^ 2 := by
    rw [List.getD_eq_getElem?_getD, List.getElem?_drop, hidx,
      ← List.getD_eq_getElem?_getD, hcent]
  exact ⟨hlen, hcent, hbound, hdroplen, hdrop0⟩

/-- Witness for C9 at the concrete signal [1, 2]. -/
theorem correlate_self_spec_witness :
    1 ≤ ([(1 : ℝ), 2]).length ∧
      ((correlate [(1 : ℝ), 2] [(1 : ℝ), 2]).length = 2 * ([(1 : ℝ), 2]).length - 1 ∧
        (correlate [(1 : ℝ), 2] [(1 : ℝ), 2]).getD (([(1 : ℝ), 2]).length - 1) 0 =
          ∑ i ∈ Finset.range ([(1 : ℝ), 2]).length, (([(1 : ℝ), 2]).getD i 0) ^ 2 ∧
        (∀ k, k < 2 * ([(1 : ℝ), 2]).length - 1 →
          (correlate [(1 : ℝ), 2] [(1 : ℝ), 2]).getD k 0 ≤
            (correlate [(1 : ℝ), 2] [(1 : ℝ), 2]).getD (([(1 : ℝ), 2]).length - 1) 0) ∧
        ((correlate [(1 : ℝ), 2] [(1 : ℝ), 2]).drop
            ((correlate [(1 : ℝ), 2] [(1 : ℝ), 2]).length / 2)).length =
          ([(1 : ℝ), 2]).length ∧
        ((correlate [(1 : ℝ), 2] [(1 : ℝ), 2]).drop
            ((correlate [(1 : ℝ), 2] [(1 : ℝ), 2]).length / 2)).getD 0 0 =
          ∑ i ∈ Finset.range ([(1 : ℝ), 2]).length, (([(1 : ℝ), 2]).getD i 0) ^ 2) :=
  ⟨by decide, correlate_self_spec [(1 : ℝ), 2] (by decide)⟩

/-- C10: `to_metric` returns `10^(μ/5 − 5)`, which is strictly positive, and
`to_metric` is strictly increasing in the distance modulus. -/
theorem to_metric_pos_strictMono :
    (∀ μ : ℝ, to_metric μ = (10 : ℝ) ^ (μ / 5 - 5) ∧ 0 < to_metric μ) ∧
      ∀ μ1 μ2 : ℝ, μ1 < μ2 → to_metric μ1 < to_metric μ2 := by
  have hdef : ∀ μ : ℝ, to_metric μ = (10 : ℝ) ^ (μ / 5 - 5) := by
    intro μ
    unfold to_metric
    norm_num
  refine ⟨fun μ => ⟨hdef μ, ?_⟩, ?_⟩
  · rw [hdef]
    exact Real.rpow_pos_of_pos (by norm_num) _
  · intro μ1 μ2 h
    rw [hdef, hdef, Real.rpow_lt_rpow_left_iff (by norm_num)]
    linarith

/-- Witness for C10 at μ1 = 0, μ2 = 5. -/
theorem to_metric_pos_strictMono_witness :
    (0 : ℝ) < 5 ∧ to_metric 0 < to_metric 5 :=
  ⟨by norm_num, to_metric_pos_strictMono.2 0 5 (by norm_num)⟩

end TimeSeries
